import Mathlib

/-!
Verification of the cache lifecycle and file-selection engine of
`condor_git_config.py` (MatterMiners/condor-git-config).

The Python source is shallowly embedded:

* the file-system tree under the cache working directory is an inductive
  tree of directory listings (`FSTree`); `os.walk` plus the dedup loop of
  `ConfigCache.__iter__` becomes `walkFrom`/`yieldDedup`;
* Python's `sorted`/`list.sort` on strings is code-point lexicographic
  order, embedded as the executable insertion sort `sortLe` over `strLe`;
* compiled regular expressions are embedded by their `search` semantics:
  a compiled pattern is a `String → Bool` function; the two concrete
  default patterns of the source, `".*"` and `"(?!)"`, are the constant
  true and constant false matchers, and alternation of pieces is
  disjunction of the piece matchers;
* the JSON metadata file is an optional parsed JSON value
  (`Option (Option JVal)`): `none` models `FileNotFoundError`,
  `some none` a file whose content `json.load` rejects, `some (some j)`
  a file parsing to `j`;
* `time.time()` values and `max_age` are exact rationals, with the
  `float("inf")` sentinel for `max_age` given its own constructor
  (IEEE `ts + inf <= now` is false for finite `now`);
* the external `git` subprocess is an oracle argument (`GitResult`):
  either the repository tree it would produce, or a failure
  (nonzero exit / timeout, both raised as exceptions by
  `subprocess.check_output`);
* Python exceptions become an explicit error type `PyErr`, and the
  stateful methods return the resulting state together with the list of
  git operations they invoked.
-/

/-! ## Sorting, as used by `sorted(file_names)` and `dir_names.sort()` -/

/-- Code-point comparison of characters (Python compares `str` by code point). -/
def charListLe : List Char → List Char → Bool
  | [], _ => true
  | _ :: _, [] => false
  | a :: as, b :: bs =>
    if a.toNat < b.toNat then true
    else if b.toNat < a.toNat then false
    else charListLe as bs

/-- Lexicographic code-point order on strings: the order of Python's `sorted`. -/
def strLe (a b : String) : Bool := charListLe a.data b.data

/-- Insert into a list, keeping elements ordered by `le`. -/
def insertLe (le : α → α → Bool) (x : α) : List α → List α
  | [] => [x]
  | y :: ys => if le x y then x :: y :: ys else y :: insertLe le x ys

/-- Sorting of a listing, the embedding of Python's `sorted`. -/
def sortLe (le : α → α → Bool) : List α → List α
  | [] => []
  | x :: xs => insertLe le x (sortLe le xs)

theorem insertLe_perm (le : α → α → Bool) (x : α) (l : List α) :
    (insertLe le x l).Perm (x :: l) := by
  induction l with
  | nil => simp [insertLe]
  | cons y ys ih =>
    simp only [insertLe]
    by_cases h : le x y = true
    · simp [h]
    · simp only [h, if_false]
      exact (ih.cons y).trans (List.Perm.swap x y ys)

theorem sortLe_perm (le : α → α → Bool) (l : List α) :
    (sortLe le l).Perm l := by
  induction l with
  | nil => simp [sortLe]
  | cons x xs ih =>
    exact (insertLe_perm le x (sortLe le xs)).trans (ih.cons x)

theorem mem_sortLe {le : α → α → Bool} {a : α} {l : List α} :
    a ∈ sortLe le l ↔ a ∈ l :=
  (sortLe_perm le l).mem_iff

theorem sortLe_nodup {le : α → α → Bool} {l : List α} (h : l.Nodup) :
    (sortLe le l).Nodup :=
  ((sortLe_perm le l).symm.nodup h)

/-! ## The file-system tree and `ConfigCache.__iter__` -/

/-- A directory tree: the names of the regular files in a directory and its
subdirectories.  Listings are plain lists, so a degenerate listing with a
repeated entry (an aliased entry, as from links) is representable. -/
inductive FSTree : Type where
  | node (files : List String) (dirs : List (String × FSTree))

mutual

def FSTree.size : FSTree → Nat
  | .node _ dirs => 1 + FSTree.sizeList dirs

def FSTree.sizeList : List (String × FSTree) → Nat
  | [] => 0
  | d :: ds => d.2.size + FSTree.sizeList ds

end

theorem size_le_of_mem {p : String × FSTree} {ds : List (String × FSTree)} :
    p ∈ ds → p.2.size ≤ FSTree.sizeList ds := by
  induction ds with
  | nil => intro h; cases h
  | cons d ds ih =>
    intro h
    rcases List.mem_cons.mp h with h | h
    · subst h; simp [FSTree.sizeList]
    · have := ih h
      simp only [FSTree.sizeList]
      omega

/-- The call `dir_names.remove(".git")` with its `ValueError` swallowed: drop the first
entry named `".git"`, if any. -/
def removeFirstGit : List (String × FSTree) → List (String × FSTree)
  | [] => []
  | d :: ds => if d.1 = ".git" then ds else d :: removeFirstGit ds

theorem mem_removeFirstGit {p : String × FSTree} {ds : List (String × FSTree)}
    (h : p ∈ removeFirstGit ds) : p ∈ ds := by
  induction ds with
  | nil => simp only [removeFirstGit] at h; cases h
  | cons d ds ih =>
    simp only [removeFirstGit] at h
    by_cases hg : d.1 = ".git"
    · simp only [hg, if_true] at h
      exact List.mem_cons_of_mem d h
    · simp only [hg, if_false, List.mem_cons] at h
      rcases h with h | h
      · exact h ▸ List.mem_cons_self d ds
      · exact List.mem_cons_of_mem d (ih h)

/-- Ordering of directory entries by name, as `dir_names.sort()` orders the
names `os.walk` then descends into. -/
def dirLe (a b : String × FSTree) : Bool := strLe a.1 b.1

/-- The sequence of relative paths produced by `os.walk` inside
`ConfigCache.__iter__`, before deduplication: for each directory, first the
sorted file names, then the subdirectories (the first `".git"` entry
removed, the rest sorted) depth-first in that order. -/
def walkFrom (t : FSTree) (pre : List String) : List (List String) :=
  match t with
  | .node files dirs =>
    ((sortLe strLe files).map (fun fn => pre ++ [fn]))
    ++ ((sortLe dirLe (removeFirstGit dirs)).attach.map
          (fun d => walkFrom d.val.2 (pre ++ [d.val.1]))).flatten
termination_by t.size
decreasing_by
  have h1 : d.val ∈ removeFirstGit dirs := mem_sortLe.mp d.property
  have h2 : d.val.2.size ≤ FSTree.sizeList dirs := size_le_of_mem (mem_removeFirstGit h1)
  simp only [FSTree.size]
  omega

/-- The `seen` set of `ConfigCache.__iter__`: yield each relative path the
first time it appears, skip later appearances. -/
def yieldDedup : List (List String) → List (List String) → List (List String)
  | [], _ => []
  | rp :: rest, seen =>
    if rp ∈ seen then yieldDedup rest seen
    else rp :: yieldDedup rest (rp :: seen)

/-- Embedding of `ConfigCache.__iter__`: walk the repository content and yield each
relative file path once, in traversal order. -/
def cacheIter (t : FSTree) : List (List String) := yieldDedup (walkFrom t []) []

mutual

/-- A tree is a well-formed file system: in every directory the file names
are distinct, the subdirectory names are distinct, and the subtrees are
themselves well-formed.  (Real directories never repeat an entry name.) -/
def FSTree.wf : FSTree → Bool
  | .node files dirs =>
    decide files.Nodup && decide (dirs.map Prod.fst).Nodup && FSTree.wfList dirs

def FSTree.wfList : List (String × FSTree) → Bool
  | [] => true
  | d :: ds => d.2.wf && FSTree.wfList ds

end

theorem wf_of_mem_wfList {ds : List (String × FSTree)} (h : FSTree.wfList ds = true)
    {p : String × FSTree} (hp : p ∈ ds) : p.2.wf = true := by
  induction ds with
  | nil => cases hp
  | cons d ds ih =>
    simp only [FSTree.wfList, Bool.and_eq_true] at h
    rcases List.mem_cons.mp hp with hp | hp
    · exact hp ▸ h.1
    · exact ih h.2 hp

/-- Modelled from the spec: the canonical deterministic traversal of §4.1
"Path iteration" — every regular file reachable under the content root,
excluding the version-control metadata subdirectory `.git`, with
directories visited in sorted order and files within a directory in sorted
order. -/
def specTraversal (t : FSTree) (pre : List String) : List (List String) :=
  match t with
  | .node files dirs =>
    ((sortLe strLe files).map (fun fn => pre ++ [fn]))
    ++ ((sortLe dirLe (dirs.filter (fun d => !(d.1 == ".git")))).attach.map
          (fun d => specTraversal d.val.2 (pre ++ [d.val.1]))).flatten
termination_by t.size
decreasing_by
  have h1 : d.val ∈ dirs.filter (fun d => !(d.1 == ".git")) := mem_sortLe.mp d.property
  have h2 : d.val.2.size ≤ FSTree.sizeList dirs :=
    size_le_of_mem (List.mem_of_mem_filter h1)
  simp only [FSTree.size]
  omega

/-! ## The JSON metadata file of `ConfigCache` -/

/-- A parsed JSON value, as `json.load` returns it.  `obj` carries the
key/value pairs of a JSON object (a Python `dict`). -/
inductive JVal : Type where
  | str (s : String)
  | num (q : ℚ)
  | jbool (b : Bool)
  | null
  | obj (fields : List (String × JVal))

/-- Python errors that the embedded code can raise. -/
inductive PyErr : Type where
  | jsonDecodeError
  | keyError (k : String)
  | typeError
  | runtimeError (msg : String)
  | subprocessError
deriving DecidableEq

/-- Python subscript `j[k]` on a parsed JSON value: a `KeyError` when the
object lacks the key, a `TypeError` when the value is not an object. -/
def jGet (j : JVal) (k : String) : Except PyErr JVal :=
  match j with
  | .obj fields =>
    match fields.lookup k with
    | some v => .ok v
    | none => .error (.keyError k)
  | _ => .error .typeError

/-- Python `==` between a parsed JSON value and a `str`: true exactly for an
equal string (values of other types compare unequal, without error). -/
def JVal.eqStr : JVal → String → Bool
  | .str s, t => s == t
  | _, _ => false

/-- Option `--max-age`: a float number of seconds, or the sentinel `inf`
("use inf to disable updates"). -/
inductive MaxAge : Type where
  | inf
  | fin (a : ℚ)

/-- The test `meta_data["timestamp"] + self.max_age <= time.time()` on floats:
for finite `max_age` exact comparison, for `max_age = inf` the sum is
`inf` and the comparison with a finite time is false. -/
def timeExceeded (ts : ℚ) (ma : MaxAge) (now : ℚ) : Bool :=
  match ma with
  | .inf => false
  | .fin a => decide (ts + a ≤ now)

/-- The constant fields of a `ConfigCache`: constructor arguments and the
resolved working path `cache_path.resolve() / branch` (as components of an
absolute path). -/
structure CacheCfg : Type where
  git_uri : String
  branch : String
  cachePath : String
  workPath : List String
  max_age : MaxAge

/-- The mutable on-disk state of one cache working directory.
`metaFile` is the content of `cache.json`: `none` when the file is absent
(`FileNotFoundError`), `some none` when it exists but `json.load` fails on
it, `some (some j)` when it parses to `j`.  `gitDir` is
`os.path.exists(repo/.git)`; `tree` is the content of `repo`. -/
structure CacheState : Type where
  metaFile : Option (Option JVal)
  gitDir : Bool
  tree : FSTree

/-- Message of the `RuntimeError` raised by `ConfigCache.outdated` on an
identity mismatch. -/
def conflictMsg (cfg : CacheCfg) : String :=
  "config cache " ++ cfg.cachePath ++ " used for conflicting hooks"

/-- Embedding of `ConfigCache.outdated`: absent metadata is stale; metadata whose
`git_uri` or `branch` differs from the cache's raises `RuntimeError`
(evaluating `git_uri` first, short-circuiting the `or`); otherwise stale
iff `timestamp + max_age <= now`.  A JSON boolean timestamp participates in
that arithmetic — Python's `bool` is a subclass of `int`, so `True` adds as
1 and `False` as 0 and no exception is raised — while a string, `null` or
object timestamp makes the `+` raise `TypeError`.  Any other exception of
`json.load` or of the subscripts propagates. -/
def outdated (cfg : CacheCfg) (st : CacheState) (now : ℚ) : Except PyErr Bool :=
  match st.metaFile with
  | none => .ok true
  | some none => .error .jsonDecodeError
  | some (some j) =>
    match jGet j "git_uri" with
    | .error e => .error e
    | .ok gu =>
      if gu.eqStr cfg.git_uri then
        match jGet j "branch" with
        | .error e => .error e
        | .ok br =>
          if br.eqStr cfg.branch then
            match jGet j "timestamp" with
            | .error e => .error e
            | .ok ts =>
              match ts with
              | .num q => .ok (timeExceeded q cfg.max_age now)
              | .jbool b => .ok (timeExceeded (if b then 1 else 0) cfg.max_age now)
              | _ => .error .typeError
          else
            .error (.runtimeError (conflictMsg cfg))
      else
        .error (.runtimeError (conflictMsg cfg))

/-- The JSON object `ConfigCache._update_metadata` serializes. -/
def metaJson (git_uri branch : String) (ts : ℚ) : JVal :=
  .obj [("git_uri", .str git_uri), ("branch", .str branch), ("timestamp", .num ts)]

/-- Embedding of `ConfigCache._update_metadata`: overwrite `cache.json` with the current
identity and the current time. -/
def update_metadata (cfg : CacheCfg) (now : ℚ) (st : CacheState) : CacheState :=
  { st with metaFile := some (some (metaJson cfg.git_uri cfg.branch now)) }

/-- The successive on-disk contents of `cache.json` during
`_update_metadata`: `open(self._meta_file, "w")` first truncates the file
(it then exists with content that `json.load` rejects), and only afterwards
does `json.dump` write the full record. -/
def updateMetadataTrace (cfg : CacheCfg) (now : ℚ) : List (Option (Option JVal)) :=
  [some none, some (some (metaJson cfg.git_uri cfg.branch now))]

/-- Outcome of the one `git` subprocess a refresh would run: the resulting
repository tree on success, or a nonzero exit / timeout. -/
inductive GitResult : Type where
  | ok (tree : FSTree)
  | fail

/-- Which git operation `ConfigCache.refresh` invoked. -/
inductive GitOp : Type where
  | clone
  | pull
deriving DecidableEq

/-- Result of `ConfigCache.refresh`: the value or error it ends with, the
resulting on-disk state, and the git operations it invoked (in order). -/
structure RefreshOut : Type where
  result : Except PyErr Unit
  state : CacheState
  ops : List GitOp

/-- Embedding of `ConfigCache.refresh`: no-op unless `outdated`; clone when `repo/.git`
is absent, else pull; a subprocess failure propagates before
`_update_metadata` runs; on success write the metadata record. -/
def refresh (cfg : CacheCfg) (git : GitResult) (st : CacheState) (now : ℚ) :
    RefreshOut :=
  match outdated cfg st now with
  | .error e => ⟨.error e, st, []⟩
  | .ok false => ⟨.ok (), st, []⟩
  | .ok true =>
    if st.gitDir then
      match git with
      | .fail => ⟨.error .subprocessError, st, [.pull]⟩
      | .ok t => ⟨.ok (), update_metadata cfg now { st with tree := t }, [.pull]⟩
    else
      match git with
      | .fail => ⟨.error .subprocessError, st, [.clone]⟩
      | .ok t =>
        ⟨.ok (), update_metadata cfg now { st with gitDir := true, tree := t }, [.clone]⟩

/-! ## `ConfigSelector` -/

/-- A compiled regular expression, embedded by its `search` semantics:
the function telling whether the pattern matches somewhere in a string. -/
def ReSearch : Type := String → Bool

/-- Embedding of `re.compile(".*")`: `search` succeeds on every string (the empty match
at position 0). -/
def reDotStar : ReSearch := fun _ => true

/-- Embedding of `re.compile("(?!)")`: the empty negative lookahead fails at every
position, so `search` succeeds on no string. -/
def reNever : ReSearch := fun _ => false

/-- Embedding of `ConfigSelector._prepare_re`: no pieces compile to the default; one
piece is compiled alone; several pieces are joined as an alternation of
non-capturing groups, whose `search` succeeds iff some piece's does. -/
def prepare_re (pieces : List ReSearch) (default : ReSearch) : ReSearch :=
  match pieces with
  | [] => default
  | [p] => p
  | ps => fun s => ps.any (fun p => p s)

/-- The compiled state of a `ConfigSelector`. -/
structure ConfigSelector : Type where
  pattern : ReSearch
  blacklist : ReSearch
  whitelist : ReSearch
  recurse : Bool

/-- Embedding of `ConfigSelector.__init__`: `pattern` defaults to `".*"`, `blacklist`
to `"(?!)"`, and `whitelist` to `".*"` (the `default` parameter of
`_prepare_re` is not overridden for the whitelist). -/
def ConfigSelector.make (pattern blacklist whitelist : List ReSearch)
    (recurse : Bool) : ConfigSelector :=
  ⟨prepare_re pattern reDotStar, prepare_re blacklist reNever,
    prepare_re whitelist reDotStar, recurse⟩

/-- Rendering `str(rel_path)` for a relative `pathlib.Path` with the given components. -/
def strPath (rp : List String) : String := String.intercalate "/" rp

/-- Embedding of `ConfigCache.repo_path`: the absolute path `work_path/repo/<rel>` as
components. -/
def repo_path (cfg : CacheCfg) (rp : List String) : List String :=
  cfg.workPath ++ ["repo"] ++ rp

/-- The loop body of `ConfigSelector.get_paths` over the already-produced
relative paths: skip non-top-level paths unless `recurse`
(`rel_path.parent != Path(".")` is "the components without the last one
are nonempty"), then test pattern, blacklist and whitelist. -/
def select_loop (sel : ConfigSelector) (cfg : CacheCfg) :
    List (List String) → List (List String)
  | [] => []
  | rp :: rest =>
    if !sel.recurse && !rp.dropLast.isEmpty then
      select_loop sel cfg rest
    else
      let s := strPath rp
      if sel.pattern s then
        if !sel.blacklist s || sel.whitelist s then
          repo_path cfg rp :: select_loop sel cfg rest
        else
          select_loop sel cfg rest
      else
        select_loop sel cfg rest

/-- Embedding of `ConfigSelector.get_paths` applied to a cache whose repository content
is `t`. -/
def get_paths (sel : ConfigSelector) (cfg : CacheCfg) (t : FSTree) :
    List (List String) :=
  select_loop sel cfg (cacheIter t)

/-! ## `include_configs` -/

/-- Render an absolute path (components) the way `print` renders the
`pathlib.Path`. -/
def pathStr (p : List String) : String := String.intercalate "/" p

/-- Result of one `include_configs` run: the lines printed to standard
output (in order), the final outcome, and the resulting cache state. -/
structure RunResult : Type where
  output : List String
  result : Except PyErr Unit
  state : CacheState
  ops : List GitOp

/-- Embedding of `include_configs`: refresh the cache, then print the path-key line and
one `include : <path>` line per selected file.  When `refresh` raises, the
exception propagates before anything is printed. -/
def include_configs (path_key : String) (cfg : CacheCfg) (git : GitResult)
    (sel : ConfigSelector) (st : CacheState) (now : ℚ) : RunResult :=
  let r := refresh cfg git st now
  match r.result with
  | .error e => ⟨[], .error e, r.state, r.ops⟩
  | .ok _ =>
    ⟨(path_key ++ " = " ++ pathStr (repo_path cfg []))
      :: (get_paths sel cfg r.state.tree).map (fun p => "include : " ++ pathStr p),
      .ok (), r.state, r.ops⟩

/-! ## Helper lemmas about the traversal -/

theorem walkFrom_def (files : List String) (dirs : List (String × FSTree))
    (pre : List String) :
    walkFrom (.node files dirs) pre =
      ((sortLe strLe files).map (fun fn => pre ++ [fn]))
      ++ ((sortLe dirLe (removeFirstGit dirs)).map
            (fun d => walkFrom d.2 (pre ++ [d.1]))).flatten := by
  rw [walkFrom]
  rw [List.attach_map_val (sortLe dirLe (removeFirstGit dirs))
    (fun d => walkFrom d.2 (pre ++ [d.1]))]

theorem specTraversal_def (files : List String) (dirs : List (String × FSTree))
    (pre : List String) :
    specTraversal (.node files dirs) pre =
      ((sortLe strLe files).map (fun fn => pre ++ [fn]))
      ++ ((sortLe dirLe (dirs.filter (fun d => !(d.1 == ".git")))).map
            (fun d => specTraversal d.2 (pre ++ [d.1]))).flatten := by
  rw [specTraversal]
  rw [List.attach_map_val (sortLe dirLe (dirs.filter (fun d => !(d.1 == ".git"))))
    (fun d => specTraversal d.2 (pre ++ [d.1]))]

theorem subtree_size_lt (files : List String) {dirs : List (String × FSTree)}
    {p : String × FSTree} (hp : p ∈ dirs) :
    p.2.size < (FSTree.node files dirs).size := by
  have := size_le_of_mem hp
  simp only [FSTree.size]
  omega

theorem yieldDedup_nodup_free (l : List (List String)) :
    ∀ seen, (yieldDedup l seen).Nodup ∧ ∀ x ∈ yieldDedup l seen, x ∉ seen := by
  induction l with
  | nil => intro seen; simp [yieldDedup]
  | cons rp rest ih =>
    intro seen
    by_cases h : rp ∈ seen
    · simpa [yieldDedup, h] using ih seen
    · simp only [yieldDedup, if_neg h]
      refine ⟨List.nodup_cons.mpr ⟨fun hmem => ?_, (ih (rp :: seen)).1⟩, ?_⟩
      · exact (ih (rp :: seen)).2 rp hmem (List.mem_cons_self rp seen)
      · intro x hx
        rcases List.mem_cons.mp hx with rfl | hx
        · exact h
        · intro hxs
          exact (ih (rp :: seen)).2 x hx (List.mem_cons_of_mem rp hxs)

theorem yieldDedup_eq_self :
    ∀ (l : List (List String)) (seen : List (List String)), l.Nodup →
      (∀ x ∈ l, x ∉ seen) → yieldDedup l seen = l := by
  intro l
  induction l with
  | nil => intro seen _ _; rfl
  | cons rp rest ih =>
    intro seen hnd hfree
    have h : rp ∉ seen := hfree rp (List.mem_cons_self rp rest)
    simp only [yieldDedup, if_neg h]
    congr 1
    refine ih (rp :: seen) (List.nodup_cons.mp hnd).2 ?_
    intro x hx hmem
    rcases List.mem_cons.mp hmem with rfl | hmem2
    · exact (List.nodup_cons.mp hnd).1 hx
    · exact hfree x (List.mem_cons_of_mem rp hx) hmem2

theorem removeFirstGit_eq_filter :
    ∀ {ds : List (String × FSTree)}, (ds.map Prod.fst).Nodup →
      removeFirstGit ds = ds.filter (fun d => !(d.1 == ".git")) := by
  intro ds
  induction ds with
  | nil => intro _; rfl
  | cons d ds ih =>
    intro h
    simp only [List.map_cons, List.nodup_cons] at h
    by_cases hg : d.1 = ".git"
    · have hq : (!(d.1 == ".git")) = false := by
        simp [hg]
      rw [show removeFirstGit (d :: ds) = ds from by simp [removeFirstGit, hg]]
      rw [List.filter_cons, hq]
      simp only [Bool.false_eq_true, if_false]
      symm
      rw [List.filter_eq_self]
      intro a ha
      simp only [Bool.not_eq_true', beq_eq_false_iff_ne, ne_eq]
      intro hc
      exact h.1 (hg ▸ hc ▸ List.mem_map_of_mem Prod.fst ha)
    · have hq : (!(d.1 == ".git")) = true := by
        simp [hg]
      simp only [removeFirstGit, if_neg hg, List.filter_cons, hq, if_true]
      rw [ih h.2]

theorem specTraversal_shape :
    ∀ (n : Nat) (t : FSTree), t.size ≤ n → ∀ (pre p : List String),
      p ∈ specTraversal t pre → ∃ s, p = pre ++ s ∧ s ≠ [] := by
  intro n
  induction n with
  | zero =>
    intro t ht
    cases t with
    | node files dirs => simp [FSTree.size] at ht
  | succ n ih =>
    intro t ht pre p hp
    cases t with
    | node files dirs =>
      rw [specTraversal_def] at hp
      rcases List.mem_append.mp hp with hp | hp
      · rcases List.mem_map.mp hp with ⟨fn, _, rfl⟩
        exact ⟨[fn], rfl, by simp⟩
      · rcases List.mem_flatten.mp hp with ⟨blk, hblk, hpblk⟩
        rcases List.mem_map.mp hblk with ⟨d, hd, rfl⟩
        have hd' : d ∈ dirs := List.mem_of_mem_filter (mem_sortLe.mp hd)
        have hsize : d.2.size ≤ n := by
          have h1 := subtree_size_lt files hd'
          simp only [FSTree.size] at h1 ht
          omega
        rcases ih d.2 hsize (pre ++ [d.1]) p hpblk with ⟨s, rfl, _⟩
        exact ⟨[d.1] ++ s, by simp, by simp⟩

theorem specTraversal_shape' {t : FSTree} {pre p : List String}
    (hp : p ∈ specTraversal t pre) : ∃ s, p = pre ++ s ∧ s ≠ [] :=
  specTraversal_shape t.size t le_rfl pre p hp

theorem specTraversal_nodup :
    ∀ (n : Nat) (t : FSTree), t.size ≤ n → t.wf = true → ∀ (pre : List String),
      (specTraversal t pre).Nodup := by
  intro n
  induction n with
  | zero =>
    intro t ht
    cases t with
    | node files dirs => simp [FSTree.size] at ht
  | succ n ih =>
    intro t ht hwf pre
    cases t with
    | node files dirs =>
      simp only [FSTree.wf, Bool.and_eq_true, decide_eq_true_eq] at hwf
      obtain ⟨⟨hfiles, hnames⟩, hsubs⟩ := hwf
      rw [specTraversal_def, List.nodup_append]
      set L := sortLe dirLe (dirs.filter (fun d => !(d.1 == ".git"))) with hL
      have hmemL : ∀ d ∈ L, d ∈ dirs := by
        intro d hd
        exact List.mem_of_mem_filter (mem_sortLe.mp hd)
      have hLnames : (L.map Prod.fst).Nodup := by
        have h1 : ((dirs.filter (fun d => !(d.1 == ".git"))).map Prod.fst).Sublist
            (dirs.map Prod.fst) :=
          (List.filter_sublist dirs).map Prod.fst
        have h2 := hnames.sublist h1
        exact ((sortLe_perm dirLe (dirs.filter (fun d => !(d.1 == ".git")))).map
          Prod.fst).symm.nodup h2
      refine ⟨?_, ?_, ?_⟩
      · refine (sortLe_nodup hfiles).map ?_
        intro a b hab
        have := List.append_cancel_left hab
        simpa using this
      · rw [List.nodup_flatten]
        constructor
        · intro blk hblk
          rcases List.mem_map.mp hblk with ⟨d, hd, rfl⟩
          have hd' : d ∈ dirs := hmemL d hd
          have hsize : d.2.size ≤ n := by
            have h1 := subtree_size_lt files hd'
            simp only [FSTree.size] at h1 ht
            omega
          exact ih d.2 hsize (wf_of_mem_wfList hsubs hd') (pre ++ [d.1])
        · have hpw : L.Pairwise (fun a b => a.1 ≠ b.1) :=
            List.pairwise_map.mp hLnames
          refine hpw.map _ ?_
          intro a b hab p hpa hpb
          rcases specTraversal_shape' hpa with ⟨s, hps, _⟩
          rcases specTraversal_shape' hpb with ⟨s', hps', _⟩
          rw [hps] at hps'
          have h0 : pre ++ ([a.1] ++ s) = pre ++ ([b.1] ++ s') := by
            simpa using hps'
          have h1 : [a.1] ++ s = [b.1] ++ s' := List.append_cancel_left h0
          exact hab (by simpa using congrArg (fun l => l.head?) h1)
      · intro p hpa hpb
        rcases List.mem_map.mp hpa with ⟨fn, _, rfl⟩
        rcases List.mem_flatten.mp hpb with ⟨blk, hblk, hpblk⟩
        rcases List.mem_map.mp hblk with ⟨d, hd, rfl⟩
        rcases specTraversal_shape' hpblk with ⟨s, hps, hsne⟩
        have hlen := congrArg List.length hps
        have hslen : 1 ≤ s.length := by
          cases s with
          | nil => exact absurd rfl hsne
          | cons a l => simp
        simp only [List.length_append, List.length_cons, List.length_nil] at hlen
        omega

theorem walkFrom_eq_spec :
    ∀ (n : Nat) (t : FSTree), t.size ≤ n → t.wf = true → ∀ (pre : List String),
      walkFrom t pre = specTraversal t pre := by
  intro n
  induction n with
  | zero =>
    intro t ht
    cases t with
    | node files dirs => simp [FSTree.size] at ht
  | succ n ih =>
    intro t ht hwf pre
    cases t with
    | node files dirs =>
      simp only [FSTree.wf, Bool.and_eq_true, decide_eq_true_eq] at hwf
      obtain ⟨⟨_, hnames⟩, hsubs⟩ := hwf
      rw [walkFrom_def, specTraversal_def, removeFirstGit_eq_filter hnames]
      congr 1
      congr 1
      apply List.map_congr_left
      intro d hd
      have hd' : d ∈ dirs := List.mem_of_mem_filter (mem_sortLe.mp hd)
      have hsize : d.2.size ≤ n := by
        have h1 := subtree_size_lt files hd'
        simp only [FSTree.size] at h1 ht
        omega
      exact ih d.2 hsize (wf_of_mem_wfList hsubs hd') (pre ++ [d.1])

theorem cacheIter_eq_spec {t : FSTree} (h : t.wf = true) :
    cacheIter t = specTraversal t [] := by
  unfold cacheIter
  rw [walkFrom_eq_spec t.size t le_rfl h []]
  exact yieldDedup_eq_self _ [] (specTraversal_nodup t.size t le_rfl h [])
    (by simp)

/-! ## Helper lemmas about the selector -/

theorem repo_path_inj {cfg : CacheCfg} {a b : List String}
    (h : repo_path cfg a = repo_path cfg b) : a = b := by
  unfold repo_path at h
  exact List.append_cancel_left h

/-- The Boolean test a relative path must pass in `get_paths`. -/
def selTest (sel : ConfigSelector) (rp : List String) : Bool :=
  (sel.recurse || rp.dropLast.isEmpty)
  && (sel.pattern (strPath rp) && (!sel.blacklist (strPath rp) || sel.whitelist (strPath rp)))

theorem select_loop_eq (sel : ConfigSelector) (cfg : CacheCfg) :
    ∀ l : List (List String),
      select_loop sel cfg l = (l.filter (selTest sel)).map (repo_path cfg) := by
  intro l
  induction l with
  | nil => rfl
  | cons hd tl ih =>
    simp only [select_loop, List.filter_cons]
    by_cases h1 : (!sel.recurse && !hd.dropLast.isEmpty) = true
    · rw [if_pos h1, ih]
      have hc : selTest sel hd = false := by
        rw [Bool.and_eq_true] at h1
        obtain ⟨ha, hb⟩ := h1
        simp only [Bool.not_eq_true'] at ha hb
        simp [selTest, ha, hb]
      rw [hc]
      simp
    · rw [if_neg h1]
      have h1' : (sel.recurse || hd.dropLast.isEmpty) = true := by
        revert h1
        cases hrec : sel.recurse <;> cases hemp : hd.dropLast.isEmpty <;> simp
      by_cases h2 : sel.pattern (strPath hd) = true
      · by_cases h3 : (!sel.blacklist (strPath hd) || sel.whitelist (strPath hd)) = true
        · rw [if_pos h2, if_pos h3]
          have hc : selTest sel hd = true := by
            simp only [selTest, h1', h2, h3, Bool.and_self, Bool.true_and]
          rw [hc]
          simp only [if_true, List.map_cons]
          rw [ih]
        · rw [if_pos h2, if_neg h3]
          have hc : selTest sel hd = false := by
            simp only [Bool.not_eq_true] at h3
            simp [selTest, h3]
          rw [hc]
          simp only [Bool.false_eq_true, if_false]
          exact ih
      · rw [if_neg h2]
        have hc : selTest sel hd = false := by
          simp only [Bool.not_eq_true] at h2
          simp [selTest, h2]
        rw [hc]
        simp only [Bool.false_eq_true, if_false]
        exact ih

/-! ## Helper lemmas about the cache state machine -/

/-- Whether a parse result of `cache.json` is readable as a well-formed
metadata record in the claim's sense: valid JSON, and an object carrying
the three keys `git_uri`, `branch` and `timestamp` (whatever their
values). -/
def metaWellFormed : Option JVal → Bool
  | none => false
  | some j =>
    (match jGet j "git_uri" with
      | .ok _ => true
      | .error _ => false)
    && (match jGet j "branch" with
      | .ok _ => true
      | .error _ => false)
    && (match jGet j "timestamp" with
      | .ok _ => true
      | .error _ => false)

theorem outdated_record (cfg : CacheCfg) (st : CacheState) (now ts : ℚ)
    (h : st.metaFile = some (some (metaJson cfg.git_uri cfg.branch ts))) :
    outdated cfg st now = .ok (timeExceeded ts cfg.max_age now) := by
  simp [outdated, h, metaJson, jGet, List.lookup, JVal.eqStr]

/-! ## Concrete fixtures for witnesses -/

/-- A concrete cache configuration (finite `max_age` of 300 seconds). -/
def cfgW : CacheCfg :=
  { git_uri := "https://example.test/conf.git"
    branch := "master"
    cachePath := "/etc/condor/config.git"
    workPath := ["", "etc", "condor", "config.git", "master"]
    max_age := .fin 300 }

def emptyTree : FSTree := .node [] []

/-- State with no metadata file and no clone yet. -/
def stNone : CacheState := { metaFile := none, gitDir := false, tree := emptyTree }

/-- State with a matching metadata record written at time at 0. -/
def stRec0 : CacheState :=
  { metaFile := some (some (metaJson cfgW.git_uri cfgW.branch 0))
    gitDir := true
    tree := emptyTree }

/-- The `search` of the concrete pattern `secret\.cfg` on the strings used
here: it matches exactly the string `secret.cfg`. -/
def secretSearch : ReSearch := fun s => s == "secret.cfg"

def treeC1 : FSTree := .node ["secret.cfg"] []

/-- A content tree with unsorted file names, a subdirectory and a `.git`
directory. -/
def treeW : FSTree :=
  .node ["b.cfg", "a.cfg"]
    [("sub", .node ["y.cfg"] []), (".git", .node ["HEAD"] [])]

/-- A selector with every field left to its default. -/
def selW : ConfigSelector := ConfigSelector.make [] [] [] true

/-! ## The claims -/

/-- C1: FALSE on the code.  The claim says an empty whitelist compiles to a
matcher that matches nothing, so a blacklisted path with no whitelist
pattern is never yielded.  In `ConfigSelector.__init__` the whitelist is
compiled with `_prepare_re`'s unchanged default `".*"`, whose search
matches every string; consequently `get_paths` yields the blacklisted file
`secret.cfg` even though the whitelist is empty. -/
theorem empty_whitelist_matches_everything :
    prepare_re [] reDotStar "secret.cfg" = true ∧
    get_paths (ConfigSelector.make [secretSearch] [secretSearch] [] false) cfgW treeC1
      = [repo_path cfgW ["secret.cfg"]] := by
  constructor
  · rfl
  · have hiter : cacheIter treeC1 = [["secret.cfg"]] := by
      simp [cacheIter, treeC1, walkFrom_def, sortLe, insertLe, removeFirstGit,
        yieldDedup]
    unfold get_paths
    rw [hiter]
    rfl

/-- C2: a candidate relative path from the cache iterator is yielded by
`get_paths` — resolved to an absolute location under the working directory
by `repo_path` — iff recursion is enabled or the path is top-level, and
the include pattern matches its string form, and the blacklist does not
match it or the whitelist does.  In particular a path that fails the
include test is never yielded, whatever the whitelist says. -/
theorem get_paths_mem_iff (sel : ConfigSelector) (cfg : CacheCfg) (t : FSTree)
    (rp : List String) :
    repo_path cfg rp ∈ get_paths sel cfg t ↔
      rp ∈ cacheIter t ∧ (sel.recurse = true ∨ rp.dropLast = []) ∧
        sel.pattern (strPath rp) = true ∧
        (sel.blacklist (strPath rp) = false ∨ sel.whitelist (strPath rp) = true) := by
  unfold get_paths
  rw [select_loop_eq]
  constructor
  · intro h
    rcases List.mem_map.mp h with ⟨rp2, hrp2, heq⟩
    have hr : rp2 = rp := repo_path_inj heq
    subst hr
    have h2 := List.mem_filter.mp hrp2
    refine ⟨h2.1, ?_⟩
    have h3 := h2.2
    simp only [selTest, Bool.and_eq_true, Bool.or_eq_true, Bool.not_eq_true',
      List.isEmpty_iff] at h3
    tauto
  · rintro ⟨hmem, hcond⟩
    refine List.mem_map.mpr ⟨rp, List.mem_filter.mpr ⟨hmem, ?_⟩, rfl⟩
    simp only [selTest, Bool.and_eq_true, Bool.or_eq_true, Bool.not_eq_true',
      List.isEmpty_iff]
    tauto

/-- C3: when the persisted metadata carries a (repository, branch) pair
differing from the cache's identity, `outdated` raises the distinguishable
`RuntimeError` (it does not return stale), and `refresh` propagates it
without invoking any git operation and without touching the state. -/
theorem identity_mismatch_fatal :
    ∀ (cfg : CacheCfg) (git : GitResult) (st : CacheState) (now : ℚ)
      (uri br : String) (tsv : JVal),
      st.metaFile = some (some (JVal.obj
        [("git_uri", JVal.str uri), ("branch", JVal.str br), ("timestamp", tsv)])) →
      uri ≠ cfg.git_uri ∨ br ≠ cfg.branch →
      outdated cfg st now = .error (.runtimeError (conflictMsg cfg)) ∧
      refresh cfg git st now = ⟨.error (.runtimeError (conflictMsg cfg)), st, []⟩ := by
  intro cfg git st now uri br tsv h hne
  have hout : outdated cfg st now = .error (.runtimeError (conflictMsg cfg)) := by
    rcases hne with hne | hne
    · have hu : (JVal.str uri).eqStr cfg.git_uri = false := by
        simp [JVal.eqStr, hne]
      simp [outdated, h, jGet, List.lookup, hu]
    · by_cases hg : uri = cfg.git_uri
      · simp [outdated, h, jGet, List.lookup, JVal.eqStr, hg, hne]
      · have hu : (JVal.str uri).eqStr cfg.git_uri = false := by
          simp [JVal.eqStr, hg]
        simp [outdated, h, jGet, List.lookup, hu]
  exact ⟨hout, by simp [refresh, hout]⟩

def stWrongUri : CacheState :=
  { metaFile := some (some (JVal.obj
      [("git_uri", JVal.str "https://other.test/x.git"),
       ("branch", JVal.str "master"), ("timestamp", JVal.num 0)]))
    gitDir := true
    tree := emptyTree }

theorem identity_mismatch_fatal_witness :
    outdated cfgW stWrongUri 10 = .error (.runtimeError (conflictMsg cfgW)) ∧
    refresh cfgW .fail stWrongUri 10 =
      ⟨.error (.runtimeError (conflictMsg cfgW)), stWrongUri, []⟩ :=
  identity_mismatch_fatal cfgW .fail stWrongUri 10 "https://other.test/x.git"
    "master" (JVal.num 0) rfl (Or.inl (by decide))

/-- C4: the staleness predicate returns stale when no metadata record
exists; with a record of matching identity it is stale iff
`timestamp + max_age <= now`; and with `max_age = inf` it never reports
stale once a record exists. -/
theorem outdated_staleness_spec :
    (∀ (cfg : CacheCfg) (st : CacheState) (now : ℚ),
      st.metaFile = none → outdated cfg st now = .ok true) ∧
    (∀ (cfg : CacheCfg) (st : CacheState) (now ts a : ℚ),
      st.metaFile = some (some (metaJson cfg.git_uri cfg.branch ts)) →
      cfg.max_age = .fin a →
      (outdated cfg st now = .ok true ↔ ts + a ≤ now)) ∧
    (∀ (cfg : CacheCfg) (st : CacheState) (now ts : ℚ),
      st.metaFile = some (some (metaJson cfg.git_uri cfg.branch ts)) →
      cfg.max_age = .inf → outdated cfg st now = .ok false) := by
  refine ⟨?_, ?_, ?_⟩
  · intro cfg st now h
    simp [outdated, h]
  · intro cfg st now ts a h hma
    rw [outdated_record cfg st now ts h]
    simp [timeExceeded, hma]
  · intro cfg st now ts h hma
    rw [outdated_record cfg st now ts h]
    simp [timeExceeded, hma]

theorem outdated_staleness_spec_witness :
    outdated cfgW stNone 100 = .ok true ∧
    (outdated cfgW stRec0 400 = .ok true ↔ (0 : ℚ) + 300 ≤ 400) ∧
    outdated { cfgW with max_age := .inf } stRec0 1000000 = .ok false :=
  ⟨outdated_staleness_spec.1 cfgW stNone 100 rfl,
   outdated_staleness_spec.2.1 cfgW stRec0 400 0 300 rfl rfl,
   outdated_staleness_spec.2.2 { cfgW with max_age := .inf } stRec0 1000000 0
     rfl rfl⟩

/-- C5: when the cache is stale and the git subprocess fails (timeout or
nonzero exit), `refresh` propagates the failure and leaves the state —
metadata record, timestamp and working-directory content — exactly as it
was; the one attempted operation is the clone or pull it invoked. -/
theorem refresh_failure_frame :
    ∀ (cfg : CacheCfg) (st : CacheState) (now : ℚ),
      outdated cfg st now = .ok true →
      refresh cfg .fail st now =
        ⟨.error .subprocessError, st,
          [if st.gitDir then GitOp.pull else GitOp.clone]⟩ := by
  intro cfg st now h
  by_cases hg : st.gitDir <;> simp [refresh, h, hg]

theorem refresh_failure_frame_witness :
    refresh cfgW .fail stNone 5 =
      ⟨.error .subprocessError, stNone, [GitOp.clone]⟩ := by
  have h := refresh_failure_frame cfgW stNone 5 rfl
  simpa [stNone] using h

/-- C6: `refresh` is a no-op (no git operation, metadata unchanged) when
the cache is not stale; consequently two refreshes within `max_age`
seconds of each other run the underlying clone/pull exactly once, the
second call changing nothing. -/
theorem refresh_idempotent :
    (∀ (cfg : CacheCfg) (git : GitResult) (st : CacheState) (now : ℚ),
      outdated cfg st now = .ok false →
      refresh cfg git st now = ⟨.ok (), st, []⟩) ∧
    (∀ (cfg : CacheCfg) (tree : FSTree) (git2 : GitResult) (st : CacheState)
      (t1 t2 a : ℚ), cfg.max_age = .fin a →
      outdated cfg st t1 = .ok true → t2 < t1 + a →
      (refresh cfg (.ok tree) st t1).ops.length = 1 ∧
      refresh cfg git2 (refresh cfg (.ok tree) st t1).state t2 =
        ⟨.ok (), (refresh cfg (.ok tree) st t1).state, []⟩) := by
  constructor
  · intro cfg git st now h
    simp [refresh, h]
  · intro cfg tree git2 st t1 t2 a hma hout hlt
    have hstate : (refresh cfg (.ok tree) st t1).state.metaFile
        = some (some (metaJson cfg.git_uri cfg.branch t1)) := by
      by_cases hg : st.gitDir <;> simp [refresh, hout, hg, update_metadata]
    have hops : (refresh cfg (.ok tree) st t1).ops.length = 1 := by
      by_cases hg : st.gitDir <;> simp [refresh, hout, hg]
    refine ⟨hops, ?_⟩
    set st1 := (refresh cfg (.ok tree) st t1).state with hst1
    have hout2 : outdated cfg st1 t2 = .ok false := by
      rw [outdated_record cfg st1 t2 t1 hstate]
      simp only [timeExceeded, hma, Except.ok.injEq, decide_eq_false_iff_not]
      linarith
    simp [refresh, hout2]

theorem refresh_idempotent_witness :
    refresh cfgW .fail stRec0 200 = ⟨.ok (), stRec0, []⟩ ∧
    ((refresh cfgW (.ok emptyTree) stNone 0).ops.length = 1 ∧
      refresh cfgW .fail (refresh cfgW (.ok emptyTree) stNone 0).state 100 =
        ⟨.ok (), (refresh cfgW (.ok emptyTree) stNone 0).state, []⟩) :=
  ⟨refresh_idempotent.1 cfgW .fail stRec0 200 (by
      rw [outdated_record cfgW stRec0 200 0 rfl]
      simp only [timeExceeded, cfgW, Except.ok.injEq, decide_eq_false_iff_not]
      norm_num),
   refresh_idempotent.2 cfgW emptyTree .fail stNone 0 100 300 rfl rfl
     (by norm_num)⟩

/-- C7: path iteration yields each relative path exactly once (the `seen`
set deduplicates even a listing with aliased entries), and on a well-formed
file-system tree the sequence it yields is exactly the canonical
deterministic traversal of the spec: every regular file under the content
root except those below `.git`, directories visited in sorted order, files
within a directory in sorted order.  The iterator is a pure function of the
tree, so re-iterating an unchanged tree yields the same sequence. -/
theorem cache_iter_exactly_once_sorted :
    (∀ t : FSTree, (cacheIter t).Nodup) ∧
    (∀ t : FSTree, t.wf = true → cacheIter t = specTraversal t []) := by
  constructor
  · intro t
    exact (yieldDedup_nodup_free (walkFrom t []) []).1
  · intro t h
    exact cacheIter_eq_spec h

theorem cache_iter_exactly_once_sorted_witness :
    (cacheIter treeW).Nodup ∧ treeW.wf = true ∧
      cacheIter treeW = specTraversal treeW [] :=
  ⟨cache_iter_exactly_once_sorted.1 treeW, by decide,
    cache_iter_exactly_once_sorted.2 treeW (by decide)⟩

/-- C8 is FALSE on the code: `_update_metadata` opens `cache.json` with
mode `w`, truncating it in place before `json.dump` writes the new record.
At the intermediate point of the write the file exists but holds no
parseable record — neither the old record nor the new one — so a crash
there leaves a partially written metadata file (which a later staleness
check fails on, rather than reading any record). -/
theorem metadata_write_not_atomic :
    some none ∈ updateMetadataTrace cfgW 100 ∧
    (some none : Option (Option JVal)) ≠ stRec0.metaFile ∧
    (some none : Option (Option JVal))
      ≠ some (some (metaJson cfgW.git_uri cfgW.branch 100)) ∧
    metaWellFormed none = false ∧
    outdated cfgW { stRec0 with metaFile := some none } 100
      = .error .jsonDecodeError :=
  ⟨by simp [updateMetadataTrace], by simp [stRec0], by simp, rfl, rfl⟩

/-- C8 amended: on every successful refresh the metadata record is
overwritten in place with the current identity and current timestamp and
nothing else of the state changes; the overwrite is not atomic — the file
first passes through a truncated, unparseable intermediate content and
only the last state of the write is the complete record. -/
theorem update_metadata_spec (cfg : CacheCfg) (now : ℚ) (st : CacheState) :
    (update_metadata cfg now st).metaFile
      = some (some (metaJson cfg.git_uri cfg.branch now)) ∧
    (update_metadata cfg now st).gitDir = st.gitDir ∧
    (update_metadata cfg now st).tree = st.tree ∧
    updateMetadataTrace cfg now =
      [some none, some (some (metaJson cfg.git_uri cfg.branch now))] ∧
    (updateMetadataTrace cfg now).getLast? =
      some (update_metadata cfg now st).metaFile :=
  ⟨rfl, rfl, rfl, rfl, rfl⟩

/-- C9: on a successful run the output is exactly the line
`<path-key> = <content root>` followed by one `include : <path>` line per
selected file, in selection order; when the refresh raises, nothing at all
is printed. -/
theorem include_configs_output_spec :
    (∀ (path_key : String) (cfg : CacheCfg) (git : GitResult)
      (sel : ConfigSelector) (st : CacheState) (now : ℚ),
      (refresh cfg git st now).result = .ok () →
      (include_configs path_key cfg git sel st now).output =
        (path_key ++ " = " ++ pathStr (repo_path cfg []))
          :: (get_paths sel cfg (refresh cfg git st now).state.tree).map
              (fun p => "include : " ++ pathStr p)) ∧
    (∀ (path_key : String) (cfg : CacheCfg) (git : GitResult)
      (sel : ConfigSelector) (st : CacheState) (now : ℚ) (e : PyErr),
      (refresh cfg git st now).result = .error e →
      (include_configs path_key cfg git sel st now).output = []) := by
  constructor
  · intro pk cfg git sel st now h
    simp [include_configs, h]
  · intro pk cfg git sel st now e h
    simp [include_configs, h]

theorem include_configs_output_spec_witness :
    (include_configs "GIT_CONFIG_CACHE_PATH" cfgW (.ok treeW) selW stNone 0).output
      = ("GIT_CONFIG_CACHE_PATH" ++ " = " ++ pathStr (repo_path cfgW []))
        :: (get_paths selW cfgW (refresh cfgW (.ok treeW) stNone 0).state.tree).map
            (fun p => "include : " ++ pathStr p) ∧
    (include_configs "GIT_CONFIG_CACHE_PATH" cfgW .fail selW stNone 0).output = [] :=
  ⟨include_configs_output_spec.1 "GIT_CONFIG_CACHE_PATH" cfgW (.ok treeW) selW
      stNone 0 rfl,
   include_configs_output_spec.2 "GIT_CONFIG_CACHE_PATH" cfgW .fail selW stNone 0
      .subprocessError rfl⟩

/-- C10: only the complete absence of the metadata file reads as "never
refreshed" (stale); a metadata file that exists but is unreadable as a
well-formed record in the claim's sense — unparseable content, a
non-object, or a record missing the `git_uri`, `branch` or `timestamp`
key — makes the staleness check raise an error rather than report stale.
(A record carrying all three keys is outside this claim: in particular a
boolean timestamp is added as an `int` by Python and yields a staleness
result, not an error.) -/
theorem outdated_absent_vs_malformed :
    (∀ (cfg : CacheCfg) (st : CacheState) (now : ℚ),
      st.metaFile = none → outdated cfg st now = .ok true) ∧
    (∀ (cfg : CacheCfg) (st : CacheState) (now : ℚ) (c : Option JVal),
      st.metaFile = some c → metaWellFormed c = false →
      ∃ e, outdated cfg st now = .error e) := by
  constructor
  · intro cfg st now h
    simp [outdated, h]
  · intro cfg st now c h hwf
    cases c with
    | none => exact ⟨.jsonDecodeError, by simp [outdated, h]⟩
    | some j =>
      cases hgu : jGet j "git_uri" with
      | error e => exact ⟨e, by simp [outdated, h, hgu]⟩
      | ok gu =>
        by_cases hg : gu.eqStr cfg.git_uri = true
        case neg =>
          refine ⟨.runtimeError (conflictMsg cfg), ?_⟩
          simp only [Bool.not_eq_true] at hg
          simp [outdated, h, hgu, hg]
        case pos =>
        cases hbr : jGet j "branch" with
        | error e => exact ⟨e, by simp [outdated, h, hgu, hg, hbr]⟩
        | ok br =>
          by_cases hb : br.eqStr cfg.branch = true
          case neg =>
            refine ⟨.runtimeError (conflictMsg cfg), ?_⟩
            simp only [Bool.not_eq_true] at hb
            simp [outdated, h, hgu, hg, hbr, hb]
          case pos =>
          cases hts : jGet j "timestamp" with
          | error e => exact ⟨e, by simp [outdated, h, hgu, hg, hbr, hb, hts]⟩
          | ok ts =>
            exfalso
            simp [metaWellFormed, hgu, hbr, hts] at hwf

/-- A metadata file whose object lacks the `branch` and `timestamp` keys. -/
def stMalformed : CacheState :=
  { metaFile := some (some (JVal.obj [("git_uri", JVal.str cfgW.git_uri)]))
    gitDir := true
    tree := emptyTree }

theorem outdated_absent_vs_malformed_witness :
    outdated cfgW { stMalformed with metaFile := none } 5 = .ok true ∧
    ∃ e, outdated cfgW stMalformed 5 = .error e :=
  ⟨outdated_absent_vs_malformed.1 cfgW { stMalformed with metaFile := none } 5 rfl,
   outdated_absent_vs_malformed.2 cfgW stMalformed 5
     (some (JVal.obj [("git_uri", JVal.str cfgW.git_uri)])) rfl rfl⟩
